import Mathlib

/-!
Verification of the sequential circuit builder in
`tket2-py/tket2/circuit/build.py`.

The builder is a thin layer over an external graph IR (the `Dfg` type of
the `tket2.circuit` bindings).  The IR itself is not part of the Python
source; its contract is modelled here from the specification's external
interface section.  Everything else (`CircBuild`, `Command`, `from_coms`,
the concrete gate commands and operation descriptors) is translated
directly from the Python source.

Python list indexing (including negative indices and the out-of-bounds
`IndexError`) is modelled explicitly by `pyGet` / `pySet`: a fallible
lookup returns `Option`, and a raised `IndexError` is `none` propagated
through the enclosing operation.
-/

set_option autoImplicit false

namespace TketBuild

universe u

/-- The wire types used by the builder: `HugrType.qubit()`,
`HugrType.linear_bit()` and `HugrType.bool()` from the bindings. -/
inductive HugrType where
  | qubit
  | linear_bit
  | boolTy
  deriving DecidableEq, Repr

/-- `QB_T = HugrType.qubit()` -/
def QB_T : HugrType := HugrType.qubit

/-- `LB_T = HugrType.linear_bit()` -/
def LB_T : HugrType := HugrType.linear_bit

/-- `BOOL_T = HugrType.bool()` -/
def BOOL_T : HugrType := HugrType.boolTy

/-- Modelled from the spec: a `Wire` is an opaque handle to a data-flow
edge of the external IR graph.  A wire is either one of the graph's
declared input wires (identified by its input position) or the `port`-th
output of the node with identifier `node`. -/
inductive Wire where
  | input (i : Nat)
  | out (node : Nat) (port : Nat)
  deriving DecidableEq, Repr

/-- An operation descriptor: `CustomOp(extension_name, gate_name,
input_types, output_types)` from the bindings. -/
structure CustomOp where
  extension_name : String
  gate_name : String
  input_types : List HugrType
  output_types : List HugrType
  deriving DecidableEq, Repr

/-- Modelled from the spec: a node handle returned by the IR when an
operation is appended; nodes are numbered in order of insertion. -/
structure Node where
  id : Nat
  deriving DecidableEq, Repr

/-- Modelled from the spec (`NodeOutputs`): `n.outs(count)` retrieves the
node's first `count` output wires in port order. -/
def Node.outs (n : Node) (count : Nat) : List Wire :=
  (List.range count).map (Wire.out n.id)

/-- Modelled from the spec: the state of the external IR's
graph-under-construction (`Dfg`).  It records the declared input/output
signature, the appended operation nodes (each with the operation
descriptor and the input wires it consumes, in insertion order), and
whether the graph has been sealed by `finish` (after which any further
use of the session is a misuse fault). -/
structure Dfg where
  input_types : List HugrType
  output_types : List HugrType
  nodes : List (CustomOp × List Wire)
  finished : Bool
  deriving DecidableEq, Repr

/-- Modelled from the spec (`CreateGraph`): `Dfg(inputTypes, outputTypes)`
declares the signature up front; no nodes yet, session open. -/
def Dfg.make (ins outs : List HugrType) : Dfg :=
  { input_types := ins, output_types := outs, nodes := [], finished := false }

/-- Modelled from the spec (`GraphInputs`): the initial wires
corresponding to the declared inputs, ordered `0..n-1`. -/
def Dfg.inputs (d : Dfg) : List Wire :=
  (List.range d.input_types.length).map Wire.input

/-- Modelled from the spec (`AppendOperation`): appends a node consuming
the given wires and returns the updated graph together with the fresh
node handle. -/
def Dfg.add_op (d : Dfg) (op : CustomOp) (ws : List Wire) : Dfg × Node :=
  ({ d with nodes := d.nodes ++ [(op, ws)] }, ⟨d.nodes.length⟩)

/-- The type carried by a wire of the graph: an input wire has the
declared input type at its position, a node output wire has the node's
declared output type at its port. -/
def Dfg.wireType (d : Dfg) (w : Wire) : Option HugrType :=
  match w with
  | .input i => d.input_types[i]?
  | .out nid p => d.nodes[nid]?.bind fun nd => nd.1.output_types[p]?

/-- Types of a list of wires; `none` if any wire is dangling. -/
def Dfg.wireTypes (d : Dfg) : List Wire → Option (List HugrType)
  | [] => some []
  | w :: ws => do
    let t ← d.wireType w
    let ts ← d.wireTypes ws
    pure (t :: ts)

/-- The completed circuit value (`Tk2Circuit`): the sealed graph with its
chosen output wires. -/
structure Tk2Circuit where
  input_types : List HugrType
  output_types : List HugrType
  nodes : List (CustomOp × List Wire)
  outputs : List Wire
  deriving DecidableEq, Repr

/-- Modelled from the spec (`FinishGraph`): seals and validates the graph
against its declared output signature.  Fails if the session was already
finished (reuse of a consumed session is a misuse fault) or if the output
wires' types do not match the declared output types.  Returns the circuit
value together with the consumed (sealed) graph state. -/
def Dfg.finish (d : Dfg) (outs : List Wire) : Option (Tk2Circuit × Dfg) :=
  if d.finished then none
  else do
    let tys ← d.wireTypes outs
    if tys = d.output_types then
      pure (⟨d.input_types, d.output_types, d.nodes, outs⟩,
            { d with finished := true })
    else none

/-! ### Python list indexing

`l[i]` on a Python list of length `n` resolves a negative index `i` with
`-n ≤ i < 0` to position `n + i`, and raises `IndexError` when
`i < -n` or `i ≥ n`.  `l[i] = a` resolves the index the same way. -/

/-- The position a (valid) Python index `i` resolves to in a list of
length `n`. -/
def pyIdx (n : Nat) (i : Int) : Nat :=
  if 0 ≤ i then i.toNat else n - (-i).toNat

/-- Whether Python index `i` is in bounds for a list of length `n`. -/
def pyValid (n : Nat) (i : Int) : Prop :=
  -(n : Int) ≤ i ∧ i < n

instance (n : Nat) (i : Int) : Decidable (pyValid n i) := by
  unfold pyValid; infer_instance

/-- Python `l[i]`: `none` models the raised `IndexError`. -/
def pyGet {α : Type u} (l : List α) (i : Int) : Option α :=
  if pyValid l.length i then l[pyIdx l.length i]? else none

/-- Python `l[i] = a`.  Callers in this development only use it after the
index has been validated by a preceding `pyGet` on a list of the same
length, so the identity fallback on an out-of-bounds index is never
reached. -/
def pySet {α : Type u} (l : List α) (i : Int) (a : α) : List α :=
  if pyValid l.length i then l.set (pyIdx l.length i) a else l

/-- `[l[i] for i in indices]`: looks the indices up in order, raising
(`none`) on the first out-of-bounds index. -/
def lookupAll {α : Type u} (l : List α) : List Int → Option (List α)
  | [] => some []
  | i :: is => do
    let w ← pyGet l i
    let ws ← lookupAll l is
    pure (w :: ws)

/-- `for i, o in zip(indices, outs): l[i] = o`, as sequential writes. -/
def writeAll {α : Type u} (l : List α) : List (Int × α) → List α
  | [] => l
  | (i, a) :: ps => writeAll (pySet l i a) ps

/-! ### Commands -/

/-- The `Command` protocol: a named operation over qubit (and linear-bit)
indices.  `n_lb` defaults to `0` and `extension_name` to
`"quantum.tket2"`, as in the source.  The `qubits()` and `bits()` methods
are the `qubits` and `bits` fields. -/
structure Command where
  gate_name : String
  n_qb : Nat
  n_lb : Nat := 0
  extension_name : String := "quantum.tket2"
  qubits : List Int
  bits : List Int := []
  deriving DecidableEq, Repr

/-- `Command.op()`:
`types = [QB_T] * n_qb + [LB_T] * n_lb;
 CustomOp(extension_name, gate_name, types, types)`. -/
def Command.op (c : Command) : CustomOp :=
  let types := List.replicate c.n_qb QB_T ++ List.replicate c.n_lb LB_T
  { extension_name := c.extension_name, gate_name := c.gate_name,
    input_types := types, output_types := types }

/-! ### The builder -/

/-- The builder session: the in-progress graph and the qubit-index table
(`qbs`), holding the current wire of each logical qubit. -/
structure CircBuild where
  dfg : Dfg
  qbs : List Wire
  deriving DecidableEq, Repr

/-- `CircBuild.__init__(n_qb)`:
`self.dfg = Dfg([QB_T] * n_qb, [QB_T] * n_qb); self.qbs = self.dfg.inputs()`. -/
def CircBuild.init (n_qb : Nat) : CircBuild :=
  let dfg := Dfg.make (List.replicate n_qb QB_T) (List.replicate n_qb QB_T)
  { dfg := dfg, qbs := dfg.inputs }

/-- `CircBuild.add(op, indices)`:
`qbs = [self.qbs[i] for i in indices];
 n = self.dfg.add_op(op, qbs); outs = n.outs(len(indices));
 for i, o in zip(indices, outs): self.qbs[i] = o; return n`.
An `IndexError` in the lookup comprehension aborts the call (`none`)
before `add_op` runs, leaving graph and table untouched. -/
def CircBuild.add (b : CircBuild) (op : CustomOp) (indices : List Int) :
    Option (CircBuild × Node) := do
  let qbs ← lookupAll b.qbs indices
  let (dfg, n) := b.dfg.add_op op qbs
  let outs := n.outs indices.length
  pure ({ dfg := dfg, qbs := writeAll b.qbs (indices.zip outs) }, n)

/-- The `Measure` operation descriptor:
`CustomOp("quantum.tket2", "Measure", [QB_T], [QB_T, BOOL_T])`. -/
def Measure : CustomOp :=
  { extension_name := "quantum.tket2", gate_name := "Measure",
    input_types := [QB_T], output_types := [QB_T, BOOL_T] }

/-- The loop of `measure_all`: for each index `i` in turn, add a
`Measure` at `[i]` and collect `node.outs(2)[1]`. -/
def measureLoop : CircBuild → List Nat → Option (CircBuild × List Wire)
  | b, [] => some (b, [])
  | b, i :: is => do
    let (b', n) ← b.add Measure [(i : Int)]
    let w ← pyGet (n.outs 2) 1
    let (b'', ws) ← measureLoop b' is
    pure (b'', w :: ws)

/-- `CircBuild.measure_all()`:
`[self.add(Measure, [i]).outs(2)[1] for i in range(len(self.qbs))]`,
returning the updated builder together with the collected result wires. -/
def CircBuild.measure_all (b : CircBuild) : Option (CircBuild × List Wire) :=
  measureLoop b (List.range b.qbs.length)

/-- `CircBuild.add_command(command)`:
`self.add(command.op(), command.qubits())`. -/
def CircBuild.add_command (b : CircBuild) (c : Command) :
    Option (CircBuild × Node) :=
  b.add c.op c.qubits

/-- `CircBuild.extend(coms)`: `for op in coms: self.add_command(op)`. -/
def CircBuild.extend (b : CircBuild) : List Command → Option CircBuild
  | [] => some b
  | c :: cs => do
    let (b', _) ← b.add_command c
    b'.extend cs

/-- `CircBuild.finish()`: `self.dfg.finish(self.qbs)`.  Returns the
circuit value and the consumed session state. -/
def CircBuild.finish (b : CircBuild) : Option (Tk2Circuit × CircBuild) :=
  (b.dfg.finish b.qbs).map fun p => (p.1, { b with dfg := p.2 })

/-! ### `from_coms` and the concrete commands -/

/-- Python `max(l)` on a list: `ValueError` (`none`) on an empty list. -/
def pyMax : List Int → Option Int
  | [] => none
  | i :: is => some (is.foldl max i)

/-- The qubit-count inference loop of `from_coms`:
`n_qb = 0; for arg in args: n_qb = max(n_qb, max(arg.qubits()) + 1)`. -/
def fromComsCount : List Command → Int → Option Int
  | [], n => some n
  | a :: rest, n => do
    let m ← pyMax a.qubits
    fromComsCount rest (max n (m + 1))

/-- `from_coms(*args)`: infer the qubit count, build a `CircBuild` of
that size, extend with all the commands in order, and finish.  (`[QB_T] *
n_qb` on a nonnegative Python int is `List.replicate n_qb.toNat`; the
count is nonnegative by construction.) -/
def from_coms (args : List Command) : Option Tk2Circuit := do
  let n_qb ← fromComsCount args 0
  let build := CircBuild.init n_qb.toNat
  let build ← build.extend args
  let (c, _) ← build.finish
  pure c

/-- `H(qubit)`: `gate_name = "H"`, `n_qb = 1`, `qubits() = [qubit]`. -/
def H (qubit : Int) : Command :=
  { gate_name := "H", n_qb := 1, qubits := [qubit] }

/-- `CX(control, target)`: `gate_name = "CX"`, `n_qb = 2`,
`qubits() = [control, target]`. -/
def CX (control target : Int) : Command :=
  { gate_name := "CX", n_qb := 2, qubits := [control, target] }

/-- `PauliX(qubit)` -/
def PauliX (qubit : Int) : Command :=
  { gate_name := "X", n_qb := 1, qubits := [qubit] }

/-- `PauliZ(qubit)` -/
def PauliZ (qubit : Int) : Command :=
  { gate_name := "Z", n_qb := 1, qubits := [qubit] }

/-- `PauliY(qubit)` -/
def PauliY (qubit : Int) : Command :=
  { gate_name := "Y", n_qb := 1, qubits := [qubit] }

/-- `QAlloc = CustomOp("quantum.tket2", "QAlloc", [], [QB_T])` -/
def QAlloc : CustomOp :=
  { extension_name := "quantum.tket2", gate_name := "QAlloc",
    input_types := [], output_types := [QB_T] }

/-- `QFree = CustomOp("quantum.tket2", "QFree", [QB_T], [])` -/
def QFree : CustomOp :=
  { extension_name := "quantum.tket2", gate_name := "QFree",
    input_types := [QB_T], output_types := [] }

/-- `Not = CustomOp("logic", "Not", [BOOL_T], [BOOL_T])` -/
def NotOp : CustomOp :=
  { extension_name := "logic", gate_name := "Not",
    input_types := [BOOL_T], output_types := [BOOL_T] }

/-! ### Basic lemmas on Python indexing -/

theorem pyIdx_of_nonneg {i : Int} (h : 0 ≤ i) (n : Nat) : pyIdx n i = i.toNat := by
  simp [pyIdx, h]

theorem pyIdx_lt {n : Nat} {i : Int} (h : pyValid n i) : pyIdx n i < n := by
  obtain ⟨h1, h2⟩ := h
  unfold pyIdx
  split <;> omega

theorem pyValid_of_nonneg_lt {n : Nat} {i : Int} (h0 : 0 ≤ i) (h : i < n) :
    pyValid n i :=
  ⟨by omega, h⟩

theorem length_pySet {α : Type u} (l : List α) (i : Int) (a : α) :
    (pySet l i a).length = l.length := by
  unfold pySet; split <;> simp

theorem pyGet_of_valid {α : Type u} {l : List α} {i : Int}
    (h : pyValid l.length i) : pyGet l i = l[pyIdx l.length i]? := by
  simp [pyGet, h]

theorem pyGet_of_not_valid {α : Type u} {l : List α} {i : Int}
    (h : ¬ pyValid l.length i) : pyGet l i = none := by
  simp [pyGet, h]

theorem pyGet_eq_some_of_valid {α : Type u} {l : List α} {i : Int}
    (h : pyValid l.length i) : ∃ w, pyGet l i = some w := by
  rw [pyGet_of_valid h]
  exact ⟨_, List.getElem?_eq_getElem (pyIdx_lt h)⟩

theorem pyGet_natCast {α : Type u} (l : List α) (i : Nat) :
    pyGet l (i : Int) = l[i]? := by
  by_cases h : i < l.length
  · rw [pyGet_of_valid (pyValid_of_nonneg_lt (by omega) (by exact_mod_cast h))]
    simp [pyIdx]
  · rw [pyGet_of_not_valid, List.getElem?_eq_none (by omega)]
    simp only [pyValid, not_and, not_lt]
    intro; exact_mod_cast Nat.le_of_not_lt h

theorem pySet_getElem? {α : Type u} (l : List α) (i : Int) (a : α) (p : Nat) :
    (pySet l i a)[p]? =
      if pyValid l.length i ∧ pyIdx l.length i = p then some a else l[p]? := by
  unfold pySet
  by_cases hv : pyValid l.length i
  · rw [if_pos hv, List.getElem?_set]
    have hlt := pyIdx_lt hv
    by_cases hp : pyIdx l.length i = p
    · simp [hp, hv, hp ▸ hlt]
    · simp [hp, hv]
  · simp [hv]

/-! ### Lemmas on `lookupAll` and `writeAll` -/

theorem lookupAll_eq_some {α : Type u} {l : List α} :
    ∀ (indices : List Int), (∀ i ∈ indices, pyValid l.length i) →
    ∃ ws, lookupAll l indices = some ws ∧ ws.length = indices.length ∧
      ∀ (k : Nat) (i : Int), indices[k]? = some i → ws[k]? = pyGet l i
  | [], _ => ⟨[], rfl, rfl, by intro k i h; simp at h⟩
  | i :: is, h => by
    obtain ⟨w, hw⟩ := pyGet_eq_some_of_valid (h i (List.mem_cons_self i is))
    obtain ⟨ws, hws, hlen, hpt⟩ :=
      lookupAll_eq_some is (fun j hj => h j (List.mem_cons_of_mem _ hj))
    refine ⟨w :: ws, ?_, by simp [hlen], ?_⟩
    · simp [lookupAll, hw, hws]
    · intro k j hk
      cases k with
      | zero =>
        rw [List.getElem?_cons_zero] at hk
        injection hk with hk
        subst hk
        rw [List.getElem?_cons_zero, hw]
      | succ k =>
        rw [List.getElem?_cons_succ] at hk
        rw [List.getElem?_cons_succ]
        exact hpt k j hk

theorem lookupAll_eq_none {α : Type u} {l : List α} :
    ∀ (indices : List Int) (i : Int), i ∈ indices → ¬ pyValid l.length i →
    lookupAll l indices = none
  | [], i, hi, _ => absurd hi (List.not_mem_nil i)
  | j :: is, i, hi, hv => by
    rcases List.mem_cons.mp hi with h | h
    · subst h; simp [lookupAll, pyGet_of_not_valid hv]
    · cases hj : pyGet l j with
      | none => simp [lookupAll, hj]
      | some w => simp [lookupAll, hj, lookupAll_eq_none is i h hv]

theorem length_writeAll {α : Type u} :
    ∀ (ps : List (Int × α)) (l : List α), (writeAll l ps).length = l.length
  | [], _ => rfl
  | (i, a) :: ps, l => by
    rw [writeAll, length_writeAll ps, length_pySet]

theorem writeAll_getElem?_of_not_mem {α : Type u} :
    ∀ (ps : List (Int × α)) (l : List α) (p : Nat),
    (∀ q ∈ ps, pyValid l.length q.1 → pyIdx l.length q.1 ≠ p) →
    (writeAll l ps)[p]? = l[p]?
  | [], _, _, _ => rfl
  | (i, a) :: ps, l, p, h => by
    rw [writeAll]
    have hlen := length_pySet l i a
    rw [writeAll_getElem?_of_not_mem ps _ p
      (by intro q hq; rw [hlen]; exact h q (List.mem_cons_of_mem _ hq))]
    rw [pySet_getElem?]
    by_cases hv : pyValid l.length i ∧ pyIdx l.length i = p
    · exact absurd hv.2 (h (i, a) (List.mem_cons_self _ _) hv.1)
    · simp [hv]

theorem writeAll_getElem?_of_mem {α : Type u} :
    ∀ (ps : List (Int × α)) (l : List α) (i : Int) (a : α),
    (i, a) ∈ ps →
    (∀ q ∈ ps, pyValid l.length q.1) →
    (ps.map fun q => pyIdx l.length q.1).Nodup →
    (writeAll l ps)[pyIdx l.length i]? = some a
  | (j, b) :: ps, l, i, a, hmem, hv, hnd => by
    rw [writeAll]
    have hlen := length_pySet l j b
    have hnd2 : (pyIdx l.length j ∉ ps.map fun q => pyIdx l.length q.1) ∧
        (ps.map fun q => pyIdx l.length q.1).Nodup := by
      rw [List.map_cons] at hnd
      exact List.nodup_cons.mp hnd
    rcases List.mem_cons.mp hmem with heq | hmem'
    · cases heq
      rw [writeAll_getElem?_of_not_mem ps _ _ ?_]
      · rw [pySet_getElem?]
        simp [hv _ (List.mem_cons_self _ _)]
      · intro q hq hvq hEq
        rw [hlen] at hEq
        have hmm : pyIdx l.length q.1 ∈ ps.map fun q => pyIdx l.length q.1 := by
          simpa using List.mem_map_of_mem (fun q => pyIdx l.length q.1) hq
        rw [hEq] at hmm
        exact hnd2.1 hmm
    · have hout : (writeAll (pySet l j b) ps)[pyIdx (pySet l j b).length i]? = some a := by
        apply writeAll_getElem?_of_mem ps _ i a hmem'
        · intro q hq; rw [hlen]; exact hv q (List.mem_cons_of_mem _ hq)
        · have heqmap : (ps.map fun q => pyIdx (pySet l j b).length q.1) =
              (ps.map fun q => pyIdx l.length q.1) := by rw [hlen]
          rw [heqmap]
          exact hnd2.2
      rw [hlen] at hout
      exact hout

/-! ### Assorted list utilities -/

theorem zip_getElem? {α : Type u} {β : Type u} :
    ∀ (l1 : List α) (l2 : List β) (k : Nat) (a : α) (b : β),
    l1[k]? = some a → l2[k]? = some b → (l1.zip l2)[k]? = some (a, b)
  | [], _, _, _, _, h1, _ => by simp at h1
  | _ :: _, [], _, _, _, _, h2 => by simp at h2
  | x :: l1, y :: l2, 0, a, b, h1, h2 => by
    rw [List.getElem?_cons_zero] at h1 h2
    injection h1 with h1
    injection h2 with h2
    subst h1; subst h2
    rw [List.zip_cons_cons, List.getElem?_cons_zero]
  | x :: l1, y :: l2, k + 1, a, b, h1, h2 => by
    rw [List.getElem?_cons_succ] at h1 h2
    rw [List.zip_cons_cons, List.getElem?_cons_succ]
    exact zip_getElem? l1 l2 k a b h1 h2

theorem mem_of_getElem_eq_some {α : Type u} {l : List α} {k : Nat} {a : α}
    (h : l[k]? = some a) : a ∈ l := by
  obtain ⟨hk, rfl⟩ := List.getElem?_eq_some.mp h
  exact List.getElem_mem hk

theorem Node_outs_length (n : Node) (c : Nat) : (n.outs c).length = c := by
  simp [Node.outs]

theorem Node_outs_getElem? (n : Node) (c k : Nat) (h : k < c) :
    (n.outs c)[k]? = some (Wire.out n.id k) := by
  unfold Node.outs
  rw [List.getElem?_map, List.getElem?_range h]
  rfl

/-! ### Reduction equations for `CircBuild.add` -/

theorem CircBuild.add_eq (b : CircBuild) (op : CustomOp) (indices : List Int)
    (ws : List Wire) (h : lookupAll b.qbs indices = some ws) :
    b.add op indices = some
      ({ dfg := { b.dfg with nodes := b.dfg.nodes ++ [(op, ws)] },
         qbs := writeAll b.qbs
           (indices.zip (Node.outs ⟨b.dfg.nodes.length⟩ indices.length)) },
       ⟨b.dfg.nodes.length⟩) := by
  unfold CircBuild.add Dfg.add_op
  rw [h]
  rfl

theorem CircBuild.add_none (b : CircBuild) (op : CustomOp) (indices : List Int)
    (h : lookupAll b.qbs indices = none) : b.add op indices = none := by
  unfold CircBuild.add
  rw [h]
  rfl

/-! ### The specification of `CircBuild.add` -/

theorem add_spec_aux (b : CircBuild) (op : CustomOp) (indices : List Int)
    (hval : ∀ i ∈ indices, 0 ≤ i ∧ i < (b.qbs.length : Int))
    (hnd : indices.Nodup) :
    ∃ ws b' node,
      lookupAll b.qbs indices = some ws ∧
      (∀ (k : Nat) (i : Int), indices[k]? = some i → ws[k]? = b.qbs[i.toNat]?) ∧
      b.add op indices = some (b', node) ∧
      node.id = b.dfg.nodes.length ∧
      b'.dfg.nodes = b.dfg.nodes ++ [(op, ws)] ∧
      b'.dfg.input_types = b.dfg.input_types ∧
      b'.dfg.output_types = b.dfg.output_types ∧
      b'.dfg.finished = b.dfg.finished ∧
      b'.qbs.length = b.qbs.length ∧
      (∀ (k : Nat) (i : Int), indices[k]? = some i →
        b'.qbs[i.toNat]? = some (Wire.out b.dfg.nodes.length k)) ∧
      (∀ p : Nat, (p : Int) ∉ indices → b'.qbs[p]? = b.qbs[p]?) := by
  have hvalid : ∀ i ∈ indices, pyValid b.qbs.length i := fun i hi =>
    pyValid_of_nonneg_lt (hval i hi).1 (hval i hi).2
  obtain ⟨ws, hws, hwlen, hwpt⟩ := lookupAll_eq_some indices hvalid
  have hpy : ∀ i ∈ indices, pyGet b.qbs i = b.qbs[i.toNat]? := by
    intro i hi
    rw [pyGet_of_valid (hvalid i hi), pyIdx_of_nonneg (hval i hi).1]
  have hadd := CircBuild.add_eq b op indices ws hws
  set m := b.dfg.nodes.length with hm
  set outs := Node.outs ⟨m⟩ indices.length with houts
  set ps := indices.zip outs with hps
  have houtslen : outs.length = indices.length := Node_outs_length _ _
  have hkeymem : ∀ q ∈ ps, q.1 ∈ indices := fun q hq => (List.of_mem_zip hq).1
  have hkeyval : ∀ q ∈ ps, pyValid b.qbs.length q.1 := fun q hq =>
    hvalid q.1 (hkeymem q hq)
  have hndpos : (ps.map fun q => pyIdx b.qbs.length q.1).Nodup := by
    have hmapeq : (ps.map fun q => pyIdx b.qbs.length q.1) =
        indices.map (fun i => pyIdx b.qbs.length i) := by
      rw [← List.map_fst_zip indices outs (by omega), ← hps, List.map_map]
      rfl
    rw [hmapeq]
    apply List.Nodup.map_on ?_ hnd
    intro x hx y hy hxy
    rw [pyIdx_of_nonneg (hval x hx).1, pyIdx_of_nonneg (hval y hy).1] at hxy
    have := (hval x hx).1
    have := (hval y hy).1
    omega
  refine ⟨ws, _, _, hws, ?_, hadd, rfl, rfl, rfl, rfl, rfl, ?_, ?_, ?_⟩
  · intro k i hk
    rw [hwpt k i hk, hpy i (mem_of_getElem_eq_some hk)]
  · exact length_writeAll _ _
  · intro k i hk
    have hklt : k < indices.length := by
      obtain ⟨hlt, -⟩ := List.getElem?_eq_some.mp hk
      exact hlt
    have hzipk : ps[k]? = some (i, Wire.out m k) :=
      zip_getElem? indices outs k i (Wire.out m k) hk (Node_outs_getElem? _ _ _ hklt)
    have hmem := mem_of_getElem_eq_some hzipk
    have hi := hkeymem _ hmem
    have := writeAll_getElem?_of_mem ps b.qbs i (Wire.out m k) hmem hkeyval hndpos
    rwa [pyIdx_of_nonneg (hval i hi).1] at this
  · intro p hp
    apply writeAll_getElem?_of_not_mem
    intro q hq hqv hEq
    have hq0 := (hval q.1 (hkeymem q hq)).1
    rw [pyIdx_of_nonneg hq0] at hEq
    have : q.1 = (p : Int) := by omega
    exact hp (this ▸ hkeymem q hq)

theorem add_singleton_nat (b : CircBuild) (op : CustomOp) (i : Nat)
    (h : i < b.qbs.length) :
    ∃ w, b.qbs[i]? = some w ∧
      b.add op [(i : Int)] = some
        ({ dfg := { b.dfg with nodes := b.dfg.nodes ++ [(op, [w])] },
           qbs := b.qbs.set i (Wire.out b.dfg.nodes.length 0) },
         ⟨b.dfg.nodes.length⟩) := by
  obtain ⟨w, hw⟩ : ∃ w, b.qbs[i]? = some w := ⟨_, List.getElem?_eq_getElem h⟩
  have hpg : pyGet b.qbs (i : Int) = some w := by rw [pyGet_natCast, hw]
  have hlk : lookupAll b.qbs [(i : Int)] = some [w] := by
    simp [lookupAll, hpg]
  have hadd := CircBuild.add_eq b op [(i : Int)] [w] hlk
  refine ⟨w, hw, ?_⟩
  have hzip : ([(i : Int)].zip (Node.outs ⟨b.dfg.nodes.length⟩ [(i : Int)].length)) =
      [((i : Int), Wire.out b.dfg.nodes.length 0)] := rfl
  have hset : writeAll b.qbs [((i : Int), Wire.out b.dfg.nodes.length 0)] =
      b.qbs.set i (Wire.out b.dfg.nodes.length 0) := by
    show pySet b.qbs (i : Int) (Wire.out b.dfg.nodes.length 0) =
      b.qbs.set i (Wire.out b.dfg.nodes.length 0)
    unfold pySet
    rw [if_pos (pyValid_of_nonneg_lt (by omega) (by exact_mod_cast h)),
        pyIdx_of_nonneg (by omega)]
    simp
  rw [hadd, hzip, hset]

/-! ### Lemmas on `CircBuild.init` -/

theorem init_qbs (n : Nat) :
    (CircBuild.init n).qbs = (List.range n).map Wire.input := by
  simp [CircBuild.init, Dfg.make, Dfg.inputs]

theorem init_qbs_length (n : Nat) : (CircBuild.init n).qbs.length = n := by
  simp [init_qbs]

theorem init_qbs_getElem? (n i : Nat) (h : i < n) :
    (CircBuild.init n).qbs[i]? = some (Wire.input i) := by
  rw [init_qbs, List.getElem?_map, List.getElem?_range h]
  rfl

/-! ### Claim theorems (part 1) -/

/-- C1: For every builder state with qubit table `qbs` and every index list
whose entries are within the table's bounds, `add(op, indices)` looks up the
wires at those indices in order, appends `op` consuming exactly those wires,
overwrites the table entries at those positions with the node's first
`len(indices)` output wires in the same order (position `i_k` receives
output `k`), leaves every table entry at an index not in the list unchanged
and the table length unchanged, and returns the created node. -/
theorem add_updates_qubit_table (b : CircBuild) (op : CustomOp)
    (indices : List Int)
    (hval : ∀ i ∈ indices, 0 ≤ i ∧ i < (b.qbs.length : Int))
    (hnd : indices.Nodup) :
    ∃ ws b' node,
      lookupAll b.qbs indices = some ws ∧
      (∀ (k : Nat) (i : Int), indices[k]? = some i → ws[k]? = b.qbs[i.toNat]?) ∧
      b.add op indices = some (b', node) ∧
      node.id = b.dfg.nodes.length ∧
      b'.dfg.nodes = b.dfg.nodes ++ [(op, ws)] ∧
      b'.dfg.input_types = b.dfg.input_types ∧
      b'.dfg.output_types = b.dfg.output_types ∧
      b'.dfg.finished = b.dfg.finished ∧
      b'.qbs.length = b.qbs.length ∧
      (∀ (k : Nat) (i : Int), indices[k]? = some i →
        b'.qbs[i.toNat]? = some (Wire.out b.dfg.nodes.length k)) ∧
      (∀ p : Nat, (p : Int) ∉ indices → b'.qbs[p]? = b.qbs[p]?) :=
  add_spec_aux b op indices hval hnd

theorem add_updates_qubit_table_witness :
    (((CircBuild.init 2).add QFree [1, 0]).map
      fun p => (p.1.qbs.length, p.2.id)) = some (2, 0) := by
  obtain ⟨ws, b', node, -, -, hadd, hid, -, -, -, -, hlen, -, -⟩ :=
    add_updates_qubit_table (CircBuild.init 2) QFree [1, 0]
      (by decide) (by decide)
  rw [hadd]
  show some (b'.qbs.length, node.id) = some (2, 0)
  rw [hlen, hid]
  rfl

/-- C3: For every qubit count `n ≥ 0`, constructing `CircBuild(n)` creates a
graph declared with `n` qubit-typed inputs and `n` qubit-typed outputs, and
initializes the qubit table to a sequence of length `n` equal to the graph's
input wires in order (entry `i` is input wire `i`). -/
theorem init_builder_spec (n : Nat) :
    (CircBuild.init n).dfg.input_types = List.replicate n QB_T ∧
    (CircBuild.init n).dfg.output_types = List.replicate n QB_T ∧
    (CircBuild.init n).dfg.nodes = [] ∧
    (CircBuild.init n).qbs = (CircBuild.init n).dfg.inputs ∧
    (CircBuild.init n).qbs.length = n ∧
    ∀ i, i < n → (CircBuild.init n).qbs[i]? = some (Wire.input i) :=
  ⟨rfl, rfl, rfl, rfl, init_qbs_length n, fun i h => init_qbs_getElem? n i h⟩

theorem init_builder_spec_witness :
    (CircBuild.init 2).qbs[1]? = some (Wire.input 1) :=
  (init_builder_spec 2).2.2.2.2.2 1 (by decide)

/-- C6: For every builder with a qubit table of size `n` and every command
referencing an index `≥ n`, appending that command faults: the wire lookup
raises (`none`) before the external `add_op` is called, so neither the graph
nor the qubit table is changed (no updated state is produced). -/
theorem add_command_out_of_bounds_faults (b : CircBuild) (c : Command)
    (i : Int) (hi : i ∈ c.qubits) (hge : (b.qbs.length : Int) ≤ i) :
    lookupAll b.qbs c.qubits = none ∧ b.add_command c = none := by
  have hnv : ¬ pyValid b.qbs.length i := fun hv => absurd hv.2 (by omega)
  have hlk := lookupAll_eq_none c.qubits i hi hnv
  exact ⟨hlk, CircBuild.add_none b c.op c.qubits hlk⟩

theorem add_command_out_of_bounds_faults_witness :
    (CircBuild.init 2).add_command (PauliX 2) = none :=
  (add_command_out_of_bounds_faults (CircBuild.init 2) (PauliX 2) 2
    (by simp [PauliX]) (by simp [init_qbs_length])).2

/-- C7: For every `Command` type with declared counts `n_qb` and `n_lb`, the
operation descriptor built by `Command.op()` has name `gate_name`, namespace
`extension_name`, input type list equal to `n_qb` qubit types followed by
`n_lb` linear-bit types, and output type list identical to the input type
list; `add_command(c)` appends exactly this descriptor at the indices
`c.qubits()` reports. -/
theorem command_op_descriptor (c : Command) :
    c.op.extension_name = c.extension_name ∧
    c.op.gate_name = c.gate_name ∧
    c.op.input_types = List.replicate c.n_qb QB_T ++ List.replicate c.n_lb LB_T ∧
    c.op.output_types = c.op.input_types ∧
    ∀ b : CircBuild, b.add_command c = b.add c.op c.qubits :=
  ⟨rfl, rfl, rfl, rfl, fun _ => rfl⟩

/-! ### Reduction equations for `CircBuild.extend` -/

theorem extend_nil (b : CircBuild) : b.extend [] = some b := rfl

theorem extend_cons (b : CircBuild) (c : Command) (cs : List Command)
    (b' : CircBuild) (node : Node) (h : b.add c.op c.qubits = some (b', node)) :
    b.extend (c :: cs) = b'.extend cs := by
  have h' : b.add_command c = some (b', node) := h
  simp only [CircBuild.extend, h', Option.bind_eq_bind, Option.some_bind]

theorem extend_cons_none (b : CircBuild) (c : Command) (cs : List Command)
    (h : b.add c.op c.qubits = none) : b.extend (c :: cs) = none := by
  have h' : b.add_command c = none := h
  simp only [CircBuild.extend, h', Option.bind_eq_bind, Option.none_bind]

/-! ### Claim theorems (part 2) -/

/-- C2: For every pair of commands `A` acting on index set `{0}` and `B`
acting on `{0, 1}` (on a fresh builder with at least two qubits), applying
`extend([A, B])` makes `B`'s appended operation consume, at index 0, the
output wire produced by `A`'s node rather than the graph's original input
wire: commands are applied in sequence order and each command's output
wires become the inputs of the next command that references an overlapping
index. -/
theorem extend_respects_command_order (n : Nat) (hn : 2 ≤ n) (A B : Command)
    (hA : A.qubits = [0]) (hB : B.qubits = [0, 1]) :
    ∃ b', (CircBuild.init n).extend [A, B] = some b' ∧
      b'.dfg.nodes =
        [(A.op, [Wire.input 0]), (B.op, [Wire.out 0 0, Wire.input 1])] ∧
      Wire.out 0 0 ≠ Wire.input 0 := by
  have hlen : (CircBuild.init n).qbs.length = n := init_qbs_length n
  obtain ⟨w0, hw0, hadd0⟩ :=
    add_singleton_nat (CircBuild.init n) A.op 0 (by omega)
  have hw0' : w0 = Wire.input 0 := by
    have h2 := (init_qbs_getElem? n 0 (by omega)).symm.trans hw0
    injection h2 with h2
    exact h2.symm
  subst hw0'
  have hnodes0 : (CircBuild.init n).dfg.nodes =
      ([] : List (CustomOp × List Wire)) := rfl
  rw [hnodes0] at hadd0
  simp only [List.nil_append, List.length_nil, Nat.cast_zero] at hadd0
  have hget0 : ((CircBuild.init n).qbs.set 0 (Wire.out 0 0))[0]? =
      some (Wire.out 0 0) := by
    have h0 : 0 < (CircBuild.init n).qbs.length := by omega
    simp [List.getElem?_set, h0]
  have hget1 : ((CircBuild.init n).qbs.set 0 (Wire.out 0 0))[1]? =
      some (Wire.input 1) := by
    rw [List.getElem?_set_ne (by omega)]
    exact init_qbs_getElem? n 1 (by omega)
  have hp0 : pyGet ((CircBuild.init n).qbs.set 0 (Wire.out 0 0)) (0 : Int) =
      some (Wire.out 0 0) := by
    have h := pyGet_natCast ((CircBuild.init n).qbs.set 0 (Wire.out 0 0)) 0
    rw [Nat.cast_zero] at h
    rw [h, hget0]
  have hp1 : pyGet ((CircBuild.init n).qbs.set 0 (Wire.out 0 0)) (1 : Int) =
      some (Wire.input 1) := by
    have h := pyGet_natCast ((CircBuild.init n).qbs.set 0 (Wire.out 0 0)) 1
    rw [Nat.cast_one] at h
    rw [h, hget1]
  have hlk : lookupAll ((CircBuild.init n).qbs.set 0 (Wire.out 0 0)) [0, 1] =
      some [Wire.out 0 0, Wire.input 1] := by
    simp [lookupAll, hp0, hp1]
  have hadd1 := CircBuild.add_eq
    ⟨{ (CircBuild.init n).dfg with nodes := [(A.op, [Wire.input 0])] },
      (CircBuild.init n).qbs.set 0 (Wire.out 0 0)⟩
    B.op [0, 1] [Wire.out 0 0, Wire.input 1] hlk
  have hext := (extend_cons _ A [B] _ _ (by rw [hA]; exact hadd0)).trans
    ((extend_cons _ B [] _ _ (by rw [hB]; exact hadd1)).trans (extend_nil _))
  exact ⟨_, hext, rfl, by decide⟩

theorem extend_respects_command_order_witness :
    ((CircBuild.init 2).extend [H 0, CX 0 1]).map
      (fun b => b.dfg.nodes.length) = some 2 := by
  obtain ⟨b', hext, hnodes, -⟩ :=
    extend_respects_command_order 2 (by decide) (H 0) (CX 0 1) rfl rfl
  rw [hext]
  show some b'.dfg.nodes.length = some 2
  rw [hnodes]
  rfl

/-- C9: For every builder with a qubit table of size `n ≥ 1` and every
integer `i` with `-n ≤ i < 0`, `add` with index `i` does not fault: Python
negative indexing makes it read and overwrite the table entry at position
`n + i` (written `n - (-i)` over naturals), so the out-of-bounds fault
occurs only for indices `≥ n` or `< -n`, and a negative index silently
aliases an existing qubit. -/
theorem add_negative_index_aliases (b : CircBuild) (op : CustomOp) (i : Int)
    (h1 : -(b.qbs.length : Int) ≤ i) (h2 : i < 0) :
    ∃ w b' node,
      b.qbs[b.qbs.length - (-i).toNat]? = some w ∧
      pyGet b.qbs i = some w ∧
      b.add op [i] = some (b', node) ∧
      node.id = b.dfg.nodes.length ∧
      b'.dfg.nodes = b.dfg.nodes ++ [(op, [w])] ∧
      b'.qbs = b.qbs.set (b.qbs.length - (-i).toNat)
        (Wire.out b.dfg.nodes.length 0) ∧
      ∀ (j : Int), ((b.qbs.length : Int) ≤ j ∨ j < -(b.qbs.length : Int)) →
        ∀ op', b.add op' [j] = none := by
  have hv : pyValid b.qbs.length i := ⟨h1, by omega⟩
  have hidx : pyIdx b.qbs.length i = b.qbs.length - (-i).toNat := by
    unfold pyIdx
    rw [if_neg (by omega)]
  obtain ⟨w, hw⟩ := pyGet_eq_some_of_valid hv
  have hwg : b.qbs[b.qbs.length - (-i).toNat]? = some w := by
    rw [← hidx, ← pyGet_of_valid hv]
    exact hw
  have hlk : lookupAll b.qbs [i] = some [w] := by simp [lookupAll, hw]
  have hadd := CircBuild.add_eq b op [i] [w] hlk
  refine ⟨w, _, _, hwg, hw, hadd, rfl, rfl, ?_, ?_⟩
  · show pySet b.qbs i (Wire.out b.dfg.nodes.length 0) = _
    unfold pySet
    rw [if_pos hv, hidx]
  · intro j hj op'
    have hnv : ¬ pyValid b.qbs.length j := by
      unfold pyValid
      omega
    exact CircBuild.add_none b op' [j]
      (lookupAll_eq_none [j] j (List.mem_cons_self j []) hnv)

theorem add_negative_index_aliases_witness :
    (((CircBuild.init 1).add Measure [-1]).map fun p => p.1.qbs) =
      some [Wire.out 0 0] := by
  obtain ⟨w, b', node, hwg, hw, hadd, hid, hnodes, hqbs, hoob⟩ :=
    add_negative_index_aliases (CircBuild.init 1) Measure (-1)
      (by rw [init_qbs_length]; decide) (by decide)
  rw [hadd]
  show some b'.qbs = some [Wire.out 0 0]
  rw [hqbs]
  rfl

/-- C8: For every builder session (with an unfinished graph whose table
wires match the declared output types), the first call to `finish()` seals
the graph with the current table's wires in index order as outputs and
returns the completed circuit value, and calling `finish()` a second time
on the same session faults (the session is consumed). -/
theorem finish_consumes_session (b : CircBuild)
    (h1 : b.dfg.finished = false)
    (h2 : b.dfg.wireTypes b.qbs = some b.dfg.output_types) :
    ∃ circ b',
      b.finish = some (circ, b') ∧
      circ.input_types = b.dfg.input_types ∧
      circ.output_types = b.dfg.output_types ∧
      circ.nodes = b.dfg.nodes ∧
      circ.outputs = b.qbs ∧
      b'.finish = none := by
  have hfin : b.dfg.finish b.qbs =
      some (⟨b.dfg.input_types, b.dfg.output_types, b.dfg.nodes, b.qbs⟩,
            { b.dfg with finished := true }) := by
    unfold Dfg.finish
    rw [h1]
    simp only [Bool.false_eq_true, if_false, h2, Option.bind_eq_bind,
      Option.some_bind, if_pos rfl, if_true, Option.pure_def]
  refine ⟨⟨b.dfg.input_types, b.dfg.output_types, b.dfg.nodes, b.qbs⟩,
    { b with dfg := { b.dfg with finished := true } },
    ?_, rfl, rfl, rfl, rfl, rfl⟩
  unfold CircBuild.finish
  rw [hfin]
  rfl

theorem finish_consumes_session_witness :
    ((CircBuild.init 0).finish.map fun p => (p.1.outputs, p.2.finish)) =
      some ([], none) := by
  obtain ⟨circ, b', hfin, -, -, -, houts, hnone⟩ :=
    finish_consumes_session (CircBuild.init 0) rfl rfl
  rw [hfin]
  show some (circ.outputs, b'.finish) = some ([], none)
  rw [houts, hnone]
  rfl

/-! ### The `measure_all` loop -/

theorem add_singleton_spec (b : CircBuild) (op : CustomOp) (i : Nat)
    (h : i < b.qbs.length) :
    ∃ w b1, b.qbs[i]? = some w ∧
      b.add op [(i : Int)] = some (b1, ⟨b.dfg.nodes.length⟩) ∧
      b1.dfg.input_types = b.dfg.input_types ∧
      b1.dfg.output_types = b.dfg.output_types ∧
      b1.dfg.finished = b.dfg.finished ∧
      b1.dfg.nodes = b.dfg.nodes ++ [(op, [w])] ∧
      b1.qbs = b.qbs.set i (Wire.out b.dfg.nodes.length 0) := by
  obtain ⟨w, hw, hadd⟩ := add_singleton_nat b op i h
  exact ⟨w, _, hw, hadd, rfl, rfl, rfl, rfl, rfl⟩

theorem measureLoop_cons (b : CircBuild) (i : Nat) (is : List Nat)
    (b1 : CircBuild) (node : Node)
    (h1 : b.add Measure [(i : Int)] = some (b1, node))
    (w : Wire) (h2 : pyGet (node.outs 2) 1 = some w)
    (b2 : CircBuild) (ws : List Wire)
    (h3 : measureLoop b1 is = some (b2, ws)) :
    measureLoop b (i :: is) = some (b2, w :: ws) := by
  simp only [measureLoop, h1, h2, h3, Option.bind_eq_bind, Option.some_bind,
    Option.pure_def]

theorem measureLoop_invariant :
    ∀ (c k : Nat) (b : CircBuild), k + c ≤ b.qbs.length →
    ∃ b' ws, measureLoop b (List.range' k c) = some (b', ws) ∧
      ws.length = c ∧
      b'.qbs.length = b.qbs.length ∧
      b'.dfg.nodes.length = b.dfg.nodes.length + c ∧
      (∀ j, j < c → ws[j]? = some (Wire.out (b.dfg.nodes.length + j) 1)) ∧
      (∀ p, k ≤ p → p < k + c →
        b'.qbs[p]? = some (Wire.out (b.dfg.nodes.length + (p - k)) 0)) ∧
      (∀ p, p < k ∨ k + c ≤ p → b'.qbs[p]? = b.qbs[p]?) ∧
      (∀ j, j < c → ∃ w, b.qbs[k + j]? = some w ∧
        b'.dfg.nodes[b.dfg.nodes.length + j]? = some (Measure, [w])) ∧
      (∀ q, q < b.dfg.nodes.length → b'.dfg.nodes[q]? = b.dfg.nodes[q]?)
  | 0, k, b, _ => by
    refine ⟨b, [], ?_, rfl, rfl, by omega, ?_, ?_, ?_, ?_, ?_⟩
    · rw [List.range'_zero]
      rfl
    · intro j hj
      omega
    · intro p h1 h2
      omega
    · intro p hp
      rfl
    · intro j hj
      omega
    · intro q hq
      rfl
  | c + 1, k, b, hle => by
    have hk : k < b.qbs.length := by omega
    obtain ⟨w, b1, hw, hadd, hb1in, hb1out, hb1fin, hb1nodes, hb1qbs⟩ :=
      add_singleton_spec b Measure k hk
    have hb1qlen : b1.qbs.length = b.qbs.length := by
      rw [hb1qbs, List.length_set]
    have hb1nlen : b1.dfg.nodes.length = b.dfg.nodes.length + 1 := by
      rw [hb1nodes]
      simp
    have hpg : pyGet ((⟨b.dfg.nodes.length⟩ : Node).outs 2) 1 =
        some (Wire.out b.dfg.nodes.length 1) := by
      have h := pyGet_natCast ((⟨b.dfg.nodes.length⟩ : Node).outs 2) 1
      rw [Nat.cast_one] at h
      rw [h]
      exact Node_outs_getElem? _ 2 1 (by omega)
    obtain ⟨b2, ws, hrec, hwslen, hqlen2, hnlen2, hwspt, hupd2, hunt2,
        hnodes2, hpres2⟩ := measureLoop_invariant c (k + 1) b1 (by omega)
    have hloop : measureLoop b (List.range' k (c + 1)) =
        some (b2, Wire.out b.dfg.nodes.length 1 :: ws) := by
      rw [List.range'_succ]
      exact measureLoop_cons b k _ b1 ⟨b.dfg.nodes.length⟩ hadd _ hpg b2 ws hrec
    refine ⟨b2, Wire.out b.dfg.nodes.length 1 :: ws, hloop, by simp [hwslen],
      by omega, by omega, ?_, ?_, ?_, ?_, ?_⟩
    · intro j hj
      cases j with
      | zero => simp
      | succ j =>
        rw [List.getElem?_cons_succ]
        have h1 := hwspt j (by omega)
        have harith : b1.dfg.nodes.length + j = b.dfg.nodes.length + (j + 1) := by
          omega
        rw [harith] at h1
        exact h1
    · intro p hkp hpc
      by_cases hpk : p = k
      · subst hpk
        rw [hunt2 p (Or.inl (by omega)), hb1qbs, List.getElem?_set]
        simp [hk]
      · have h1 := hupd2 p (by omega) (by omega)
        have harith : b1.dfg.nodes.length + (p - (k + 1)) =
            b.dfg.nodes.length + (p - k) := by omega
        rw [harith] at h1
        exact h1
    · intro p hp
      rw [hunt2 p (by omega), hb1qbs]
      exact List.getElem?_set_ne (by omega)
    · intro j hj
      cases j with
      | zero =>
        refine ⟨w, by rw [Nat.add_zero]; exact hw, ?_⟩
        rw [Nat.add_zero, hpres2 b.dfg.nodes.length (by omega), hb1nodes]
        exact List.getElem?_concat_length b.dfg.nodes (Measure, [w])
      | succ j =>
        obtain ⟨w', hw', hn'⟩ := hnodes2 j (by omega)
        rw [hb1qbs, List.getElem?_set_ne (by omega)] at hw'
        refine ⟨w', ?_, ?_⟩
        · have harith : k + (j + 1) = k + 1 + j := by omega
          rw [harith]
          exact hw'
        · have harith : b.dfg.nodes.length + (j + 1) = b1.dfg.nodes.length + j := by
            omega
          rw [harith]
          exact hn'
    · intro q hq
      rw [hpres2 q (by omega), hb1nodes, List.getElem?_append, if_pos hq]

/-- C5: For every builder whose qubit table has size `n`, `measure_all()`
appends one two-output measure operation per index position `0..n-1`
(consuming the wire currently at that position) and returns exactly `n`
classical-bit wires — the second output wire (port 1) of each measure node
— as a sequence in index order, while each table entry `i` is replaced by
that measure node's first (qubit, port 0) output wire; the classical wires
are not stored in the table. -/
theorem measure_all_spec (b : CircBuild) :
    ∃ b' ws, b.measure_all = some (b', ws) ∧
      ws.length = b.qbs.length ∧
      b'.qbs.length = b.qbs.length ∧
      b'.dfg.nodes.length = b.dfg.nodes.length + b.qbs.length ∧
      ∀ j, j < b.qbs.length →
        ws[j]? = some (Wire.out (b.dfg.nodes.length + j) 1) ∧
        b'.qbs[j]? = some (Wire.out (b.dfg.nodes.length + j) 0) ∧
        ∃ w, b.qbs[j]? = some w ∧
          b'.dfg.nodes[b.dfg.nodes.length + j]? = some (Measure, [w]) := by
  obtain ⟨b', ws, hloop, hwslen, hqlen, hnlen, hwspt, hupd, hunt, hnodes,
      hpres⟩ := measureLoop_invariant b.qbs.length 0 b (by omega)
  refine ⟨b', ws, ?_, hwslen, hqlen, hnlen, ?_⟩
  · unfold CircBuild.measure_all
    rw [List.range_eq_range']
    exact hloop
  · intro j hj
    refine ⟨hwspt j hj, ?_, ?_⟩
    · have h := hupd j (by omega) (by omega)
      rw [Nat.sub_zero] at h
      exact h
    · have h := hnodes j hj
      rw [Nat.zero_add] at h
      exact h

theorem measure_all_spec_witness :
    ((CircBuild.init 1).measure_all.map fun p => p.2) = some [Wire.out 0 1] := by
  obtain ⟨b', ws, hloop, hwslen, -, -, hj⟩ := measure_all_spec (CircBuild.init 1)
  rw [hloop]
  show some ws = some [Wire.out 0 1]
  have hlen1 : ws.length = 1 := by rw [hwslen, init_qbs_length]
  obtain ⟨x, rfl⟩ := List.length_eq_one.mp hlen1
  have h0 := (hj 0 (by rw [init_qbs_length]; omega)).1
  rw [List.getElem?_cons_zero] at h0
  injection h0 with h0
  rw [h0]
  rfl

/-! ### `from_coms`: qubit-count inference -/

theorem foldl_max_spec : ∀ (is : List Int) (i : Int),
    i ≤ is.foldl max i ∧ (is.foldl max i = i ∨ is.foldl max i ∈ is) ∧
    ∀ j ∈ is, j ≤ is.foldl max i
  | [], i => ⟨le_refl i, Or.inl rfl, by
      intro j hj
      exact absurd hj (List.not_mem_nil j)⟩
  | j :: is, i => by
    obtain ⟨h1, h2, h3⟩ := foldl_max_spec is (max i j)
    rw [List.foldl_cons]
    refine ⟨le_trans (le_max_left i j) h1, ?_, ?_⟩
    · rcases h2 with h | h
      · rcases max_choice i j with hm | hm
        · exact Or.inl (by rw [h, hm])
        · right
          rw [h, hm]
          exact List.mem_cons_self j is
      · exact Or.inr (List.mem_cons_of_mem j h)
    · intro a ha
      rcases List.mem_cons.mp ha with rfl | ha
      · exact le_trans (le_max_right i a) h1
      · exact h3 a ha

theorem pyMax_spec (l : List Int) (hne : l ≠ []) :
    ∃ m, pyMax l = some m ∧ m ∈ l ∧ ∀ j ∈ l, j ≤ m := by
  match l with
  | [] => exact absurd rfl hne
  | i :: is =>
    obtain ⟨h1, h2, h3⟩ := foldl_max_spec is i
    refine ⟨is.foldl max i, rfl, ?_, ?_⟩
    · rcases h2 with h | h
      · rw [h]
        exact List.mem_cons_self i is
      · exact List.mem_cons_of_mem i h
    · intro j hj
      rcases List.mem_cons.mp hj with rfl | hj
      · exact h1
      · exact h3 j hj

theorem fromComsCount_spec : ∀ (args : List Command) (acc : Int),
    (∀ c ∈ args, c.qubits ≠ []) →
    ∃ v, fromComsCount args acc = some v ∧ acc ≤ v ∧
      (∀ c ∈ args, ∀ i ∈ c.qubits, i + 1 ≤ v) ∧
      (v = acc ∨ ∃ c ∈ args, ∃ i ∈ c.qubits, v = i + 1)
  | [], acc, _ => ⟨acc, rfl, le_refl acc, by simp, Or.inl rfl⟩
  | a :: rest, acc, h => by
    obtain ⟨m, hm, hmem, hub⟩ :=
      pyMax_spec a.qubits (h a (List.mem_cons_self a rest))
    obtain ⟨v, hv, hacc, hub2, hcases⟩ :=
      fromComsCount_spec rest (max acc (m + 1))
        (fun c hc => h c (List.mem_cons_of_mem a hc))
    have hcount : fromComsCount (a :: rest) acc = some v := by
      simp only [fromComsCount, hm, Option.bind_eq_bind, Option.some_bind, hv]
    have hm1 : m + 1 ≤ v := le_trans (le_max_right acc (m + 1)) hacc
    refine ⟨v, hcount, le_trans (le_max_left acc (m + 1)) hacc, ?_, ?_⟩
    · intro c hc i hi
      rcases List.mem_cons.mp hc with rfl | hc
      · have := hub i hi
        omega
      · exact hub2 c hc i hi
    · rcases hcases with h | ⟨c, hc, i, hi, hvi⟩
      · rcases max_choice acc (m + 1) with hmx | hmx
        · exact Or.inl (by rw [h, hmx])
        · exact Or.inr ⟨a, List.mem_cons_self a rest, m, hmem, by rw [h, hmx]⟩
      · exact Or.inr ⟨c, List.mem_cons_of_mem a hc, i, hi, hvi⟩

/-- C4: For every non-empty sequence of commands each referencing at least
one qubit index (indices being nonnegative qubit positions), `from_coms`
computes the qubit count as (maximum index `M` referenced by any command)
plus 1, then builds by constructing a `CircBuild` of that size, extending
it with all the commands in order, and finishing; in particular
`from_coms(H(qubit=0), CX(control=1, target=2))` infers qubit count 3 and
produces a 3-qubit circuit. -/
theorem from_coms_infers_qubit_count (args : List Command) (_hne : args ≠ [])
    (hq : ∀ c ∈ args, c.qubits ≠ [])
    (hnonneg : ∀ c ∈ args, ∀ i ∈ c.qubits, 0 ≤ i)
    (M : Int) (hub : ∀ c ∈ args, ∀ i ∈ c.qubits, i ≤ M)
    (hmem : ∃ c ∈ args, M ∈ c.qubits) :
    fromComsCount args 0 = some (M + 1) ∧
    from_coms args = (do
      let build ← (CircBuild.init (M + 1).toNat).extend args
      let (c, _) ← build.finish
      pure c) ∧
    fromComsCount [H 0, CX 1 2] 0 = some 3 ∧
    (from_coms [H 0, CX 1 2]).map
        (fun circ => (circ.input_types, circ.output_types)) =
      some (List.replicate 3 QB_T, List.replicate 3 QB_T) := by
  obtain ⟨cM, hcM, hMq⟩ := hmem
  have hM0 : 0 ≤ M := hnonneg cM hcM M hMq
  obtain ⟨v, hv, hacc, hub2, hcases⟩ := fromComsCount_spec args 0 hq
  have hvM : v = M + 1 := by
    have hlow : M + 1 ≤ v := hub2 cM hcM M hMq
    have hhigh : v ≤ M + 1 := by
      rcases hcases with h | ⟨c, hc, i, hi, hvi⟩
      · omega
      · have := hub c hc i hi
        omega
    omega
  subst hvM
  refine ⟨hv, ?_, by decide, by decide⟩
  simp only [from_coms, hv, Option.bind_eq_bind, Option.some_bind]

theorem from_coms_infers_qubit_count_witness :
    fromComsCount [H 0, CX 1 2] 0 = some 3 := by
  have h := (from_coms_infers_qubit_count [H 0, CX 1 2] (by decide)
    (by decide) (by decide) 2 (by decide) (by decide)).1
  exact h.trans (by decide)

/-- C10: Calling `from_coms` with zero commands does not fault: the
inferred qubit count stays 0, and the function returns the circuit
produced by finishing an empty 0-qubit builder (zero inputs, zero outputs,
no operations) — the empty-input case resolves to a zero-qubit circuit
rather than a rejection. -/
theorem from_coms_empty_ok :
    fromComsCount [] 0 = some 0 ∧
    from_coms [] = some ⟨[], [], [], []⟩ :=
  ⟨rfl, rfl⟩

end TketBuild
